import Mathlib

/-!
Verification of the struct-literal context scanner and hover-text struct parser
of a Go editor extension (`goAnalyzer.ts`).

The source operates on JavaScript strings; we embed documents as `List Char`.
JavaScript regular expressions are embedded as executable scanning functions
that reproduce the leftmost-match, greedy/lazy and backtracking semantics of
the concrete patterns used by the source (each pattern is simple enough that
its backtracking is deterministic; this is argued pointwise in comments).
Character classes follow the ASCII ranges used by the source's patterns.
-/

namespace GoAnalyzer

/-- The characters that are special to the scanners, by code point since some
of them are awkward as literals. -/
def quoteC : Char := Char.ofNat 34

def backtC : Char := Char.ofNat 96

def bslashC : Char := Char.ofNat 92

def obraceC : Char := Char.ofNat 123

def cbraceC : Char := Char.ofNat 125

/-- JavaScript `\s` and `trim`, restricted to the ASCII whitespace the inputs
here contain. -/
def isSpaceChar (c : Char) : Bool :=
  c.toNat = 32 || (9 ≤ c.toNat && c.toNat ≤ 13)

/-- JavaScript `\w` = `[A-Za-z0-9_]`. -/
def isWordChar (c : Char) : Bool :=
  (65 ≤ c.toNat && c.toNat ≤ 90) || (97 ≤ c.toNat && c.toNat ≤ 122) ||
    (48 ≤ c.toNat && c.toNat ≤ 57) || c.toNat = 95

/-- `[A-Z_]`, the first character of a type identifier in the source's pattern. -/
def isUpperUnd (c : Char) : Bool :=
  (65 ≤ c.toNat && c.toNat ≤ 90) || c.toNat = 95

/-- `[a-z]`; used only in theorem statements about lowercase package names. -/
def isLowerAlpha (c : Char) : Bool :=
  97 ≤ c.toNat && c.toNat ≤ 122

/-- State of the comma-counting scanner of `countActiveFieldIndex`:
`index`, the three depth counters (JavaScript numbers that may go negative,
hence `Int`), the two string-mode flags, and the previously seen character
(`none` models the initial JavaScript `''`). -/
structure ScanState where
  index : Nat
  braceDepth : Int
  parenDepth : Int
  bracketDepth : Int
  inDoubleQuote : Bool
  inBacktick : Bool
  prevChar : Option Char
deriving DecidableEq, Repr

def initState : ScanState :=
  { index := 0, braceDepth := 0, parenDepth := 0, bracketDepth := 0,
    inDoubleQuote := false, inBacktick := false, prevChar := none }

/-- One iteration of the `for (const char of text)` loop of
`countActiveFieldIndex`. -/
def scanStep (s : ScanState) (c : Char) : ScanState :=
  let s' :=
    if c = quoteC ∧ s.inBacktick = false ∧ s.prevChar ≠ some bslashC then
      { s with inDoubleQuote := !s.inDoubleQuote }
    else if c = backtC ∧ s.inDoubleQuote = false then
      { s with inBacktick := !s.inBacktick }
    else if s.inDoubleQuote = false ∧ s.inBacktick = false then
      if c = obraceC then { s with braceDepth := s.braceDepth + 1 }
      else if c = cbraceC then { s with braceDepth := s.braceDepth - 1 }
      else if c = '(' then { s with parenDepth := s.parenDepth + 1 }
      else if c = ')' then { s with parenDepth := s.parenDepth - 1 }
      else if c = '[' then { s with bracketDepth := s.bracketDepth + 1 }
      else if c = ']' then { s with bracketDepth := s.bracketDepth - 1 }
      else if c = ',' ∧ s.braceDepth = 0 ∧ s.parenDepth = 0 ∧ s.bracketDepth = 0 then
        { s with index := s.index + 1 }
      else s
    else s
  { s' with prevChar := some c }

/-- `countActiveFieldIndex(text)`: the number of top-level commas in `text`. -/
def countActiveFieldIndex (text : List Char) : Nat :=
  (text.foldl scanStep initState).index

/-- The backward brace scan of `findStructLiteralContext`, run over the
reversed document prefix.  On the reversed list a `}` increments `depth`; a
`{` met at depth `0` is the candidate: the scan returns the characters
consumed so far (the literal's inside, reversed) and the remainder (the text
before the brace, reversed).  Otherwise the `{` decrements `depth`. -/
def braceSplit : List Char → Nat → Option (List Char × List Char)
  | [], _ => none
  | c :: rest, depth =>
    if c = obraceC then
      if depth = 0 then some ([], rest)
      else
        match braceSplit rest (depth - 1) with
        | some (ins, bef) => some (c :: ins, bef)
        | none => none
    else
      match braceSplit rest (if c = cbraceC then depth + 1 else depth) with
      | some (ins, bef) => some (c :: ins, bef)
      | none => none

/-- JavaScript `trimEnd`. -/
def trimEnd (l : List Char) : List Char :=
  (l.reverse.dropWhile isSpaceChar).reverse

/-- JavaScript `trim`. -/
def trim (l : List Char) : List Char :=
  ((l.dropWhile isSpaceChar).reverse.dropWhile isSpaceChar).reverse

/-- `[A-Z_][a-zA-Z0-9_]*`: an identifier segment of the type-name pattern,
taken greedily (the following `\s+`, `.` or `$` cannot consume word
characters, so the greedy run is forced). -/
def matchIdentTail (l : List Char) : Option (List Char × List Char) :=
  match l with
  | c :: rest =>
    if isUpperUnd c then some (c :: rest.takeWhile isWordChar, rest.dropWhile isWordChar)
    else none
  | [] => none

/-- The part of the type-name pattern after the optional `&`:
`\s*` then `[A-Z_]\w*` then optionally `.[A-Z_]\w*`, anchored at the end of
the string (`$`).  Returns the length of group 1 (`&` plus whitespace) and
group 2 (the captured name). -/
def matchTypeCore (ampLen : Nat) (l : List Char) : Option (Nat × List Char) :=
  let sp := l.takeWhile isSpaceChar
  let l2 := l.dropWhile isSpaceChar
  match matchIdentTail l2 with
  | none => none
  | some (id1, l3) =>
    match l3 with
    | [] => some (ampLen + sp.length, id1)
    | '.' :: l4 =>
      match matchIdentTail l4 with
      | some (id2, l5) =>
        if l5.isEmpty then some (ampLen + sp.length, id1 ++ '.' :: id2) else none
      | none => none
    | _ :: _ => none

/-- An attempt of the type-name pattern
`(&?\s*)([A-Z_][a-zA-Z0-9_]*(?:\.[A-Z_][a-zA-Z0-9_]*)?)$` at a fixed start
position; the suffix must be consumed entirely because of the `$` anchor. -/
def matchTypeFrom (l : List Char) : Option (Nat × List Char) :=
  match l with
  | c :: rest => if c = '&' then matchTypeCore 1 rest else matchTypeCore 0 (c :: rest)
  | [] => matchTypeCore 0 []

/-- Leftmost match of the type-name pattern: JavaScript `match` tries each
start position from the left.  Returns the length of the whole match
(the suffix length, because of `$`), the group-1 length and group 2. -/
def typeMatchSearch : List Char → Option (Nat × Nat × List Char)
  | [] => none
  | c :: rest =>
    match matchTypeFrom (c :: rest) with
    | some (g1, g2) => some (rest.length + 1, g1, g2)
    | none => typeMatchSearch rest

/-- The result record of `findStructLiteralContext` (`typePosition` is kept
as a text offset; the source converts it to a line/column position). -/
structure StructLiteralContext where
  typeName : List Char
  typeStartOffset : Nat
  activeFieldIndex : Nat
deriving DecidableEq, Repr

/-- `findStructLiteralContext(document, position)` over the document text and
cursor offset. -/
def findStructLiteralContext (text : List Char) (offset : Nat) :
    Option StructLiteralContext :=
  match braceSplit ((text.take offset).reverse) 0 with
  | none => none
  | some (insRev, befRev) =>
    let textBeforeBrace := trimEnd befRev.reverse
    match typeMatchSearch textBeforeBrace with
    | none => none
    | some (suffLen, g1, g2) =>
      some { typeName := g2,
             typeStartOffset := textBeforeBrace.length - suffLen + g1,
             activeFieldIndex := countActiveFieldIndex insRev.reverse }

/-- One field of a struct, as extracted by `parseFields`.  `tag` and
`documentation` are `none` exactly when the corresponding optional regex
groups did not participate in the match (JavaScript `undefined`). -/
structure FieldInfo where
  name : List Char
  fieldType : List Char
  tag : Option (List Char)
  documentation : Option (List Char)
deriving DecidableEq, Repr

/-- The characters admitted by the type-expression group `[^`\/\n]+?` of the
field pattern: anything but a backtick, a slash or a newline. -/
def isBChar (c : Char) : Bool :=
  !(c = backtC || c = '/' || c = '\n')

/-- Head-of-list test used to embed `\s+`-style mandatory runs. -/
def headIs (p : Char → Bool) (l : List Char) : Bool :=
  match l with
  | c :: _ => p c
  | [] => false

/-- The optional tag group ``(?:\s+`([^`]*)`)?`` tried at `l`: a nonempty
whitespace run (maximal, and forced since a backtick must follow), a
backtick, the greedy tag contents up to the next backtick, and the closing
backtick.  Returns the tag and the remainder. -/
def tagFrom (l : List Char) : Option (List Char × List Char) :=
  if headIs isSpaceChar l then
    match l.dropWhile isSpaceChar with
    | c :: r2 =>
      if c = backtC then
        let tg := r2.takeWhile (fun d => !(d = backtC))
        match r2.dropWhile (fun d => !(d = backtC)) with
        | d :: r4 => if d = backtC then some (tg, r4) else none
        | [] => none
      else none
    | [] => none
  else none

/-- The optional comment group and anchor `(?:\s*\/\/\s*(.*))?$` tried at `l`.
`some (some d)` means the comment group matched with documentation `d`;
`some none` means the group is absent and `l` is already at the end; `none`
means the whole attempt fails here.  The first `\s*` is forced maximal (a
slash must follow), and `(.*)` cannot cross a newline. -/
def cmtEnd (l : List Char) : Option (Option (List Char)) :=
  match l.dropWhile isSpaceChar with
  | '/' :: '/' :: r2 =>
    let d := r2.dropWhile isSpaceChar
    if d.contains '\n' then none else some (some d)
  | _ => if l.isEmpty then some none else none

/-- After the type-expression group: the tag group is tried first (present,
then absent), and for each choice the comment group is tried (present, then
absent) followed by the `$` anchor — the JavaScript backtracking order. -/
def tryAfterB (l : List Char) : Option (Option (List Char) × Option (List Char)) :=
  match tagFrom l with
  | some (tg, r) =>
    match cmtEnd r with
    | some doc => some (some tg, doc)
    | none =>
      match cmtEnd l with
      | some doc => some (none, doc)
      | none => none
  | none =>
    match cmtEnd l with
    | some doc => some (none, doc)
    | none => none

/-- The lazy growth of the type-expression group: first try to finish the
match at `rest`; on failure extend the group by one admissible character.
Returns how many further characters the group consumed, then the tag and the
documentation of the completed match. -/
def goBLen : List Char → Option (Nat × Option (List Char) × Option (List Char))
  | [] =>
    match tryAfterB [] with
    | some (tg, doc) => some (0, tg, doc)
    | none => none
  | c :: rest' =>
    match tryAfterB (c :: rest') with
    | some (tg, doc) => some (0, tg, doc)
    | none =>
      if isBChar c then (goBLen rest').map (fun r => (r.1 + 1, r.2)) else none

/-- The type-expression group needs at least one character; on success the
group is that character followed by the further characters the lazy growth
consumed. -/
def startB (l : List Char) :
    Option (List Char × Option (List Char) × Option (List Char)) :=
  match l with
  | c :: rest =>
    if isBChar c then (goBLen rest).map (fun r => (c :: rest.take r.1, r.2)) else none
  | [] => none

/-- Backtracking of the mandatory whitespace run `\s+` before the
type-expression group: the maximal run is tried first; on failure the run
gives back one trailing space at a time (never below one).  `spRev` is the
run still retained, reversed; `remaining` is the text after it. -/
def tryWS : List Char → List Char →
    Option (List Char × Option (List Char) × Option (List Char))
  | [], _ => none
  | h :: t, remaining =>
    match startB remaining with
    | some r => some r
    | none =>
      match t with
      | [] => none
      | _ :: _ => tryWS t (h :: remaining)

/-- One line against the field pattern
``^(\w+)\s+([^`\/\n]+?)(?:\s+`([^`]*)`)?(?:\s*\/\/\s*(.*))?$``;
the field's type is the trimmed group 2. -/
def parseFieldLine (line : List Char) : Option FieldInfo :=
  match line with
  | [] => none
  | c :: rest =>
    if isWordChar c then
      let nm := c :: rest.takeWhile isWordChar
      let r1 := rest.dropWhile isWordChar
      let sp := r1.takeWhile isSpaceChar
      let r2 := r1.dropWhile isSpaceChar
      match sp with
      | [] => none
      | _ :: _ =>
        match tryWS sp.reverse r2 with
        | none => none
        | some (b, tg, doc) =>
          some { name := nm, fieldType := trim b, tag := tg, documentation := doc }
    else none

/-- JavaScript `split(/[;\n]/)`: split at every semicolon or newline, keeping
empty pieces. -/
def splitSN : List Char → List (List Char)
  | [] => [[]]
  | c :: t =>
    if c = ';' ∨ c = '\n' then [] :: splitSN t
    else
      match splitSN t with
      | h :: r => (c :: h) :: r
      | [] => [[c]]

/-- One iteration of the `parseFields` loop: skip empty and comment-only
lines and lines the field pattern rejects, push a `FieldInfo` for a match. -/
def parseFieldsStep (acc : List FieldInfo) (line : List Char) : List FieldInfo :=
  if line.isEmpty || ['/', '/'].isPrefixOf line then acc
  else
    match parseFieldLine line with
    | some f => acc ++ [f]
    | none => acc

/-- `parseFields(fieldsBlock)`: split on `;`/newline, trim, drop empty
pieces, then loop over the lines. -/
def parseFields (fieldsBlock : List Char) : List FieldInfo :=
  let lines := ((splitSN fieldsBlock).map trim).filter (fun l => !l.isEmpty)
  lines.foldl parseFieldsStep []

/-- The result record of `parseStructFromHover` / `parseInlineStruct`. -/
structure StructInfo where
  name : List Char
  fields : List FieldInfo
  documentation : Option (List Char)
deriving DecidableEq, Repr

/-- The lazy-substring search underlying the hover patterns: the characters
strictly before the first occurrence of `pat`, or `none` if `pat` does not
occur. -/
def takeUntilSub (pat : List Char) : List Char → Option (List Char)
  | [] => if pat.isEmpty then some [] else none
  | c :: t =>
    if pat.isPrefixOf (c :: t) then some []
    else (takeUntilSub pat t).map (fun r => c :: r)

/-- Whether `pat` occurs as a contiguous substring. -/
def hasSub (pat l : List Char) : Bool :=
  (takeUntilSub pat l).isSome

/-- The opening of a go-tagged fence, ```` ```go ```` followed by a newline. -/
def goFence : List Char := backtC :: backtC :: backtC :: 'g' :: 'o' :: '\n' :: []

/-- The closing of a fence: a newline followed by three backticks. -/
def closeFence : List Char := '\n' :: backtC :: backtC :: backtC :: []

/-- Three backticks, the anchor of the documentation pattern. -/
def tick3 : List Char := backtC :: backtC :: backtC :: []

/-- The code-block pattern ``/```go\n([\s\S]*?)\n```/``: the leftmost
occurrence of the opening fence that is followed by a closing fence; group 1
is the interior (lazy, so up to the first closing fence). -/
def codeBlockMatch : List Char → Option (List Char)
  | [] => none
  | c :: t =>
    if goFence.isPrefixOf (c :: t) then
      match takeUntilSub closeFence ((c :: t).drop 6) with
      | some interior => some interior
      | none => codeBlockMatch t
    else codeBlockMatch t

/-- The documentation of `parseStructFromHover`: group 1 of
``/^([\s\S]*?)```/`` (the text before the first three backticks), trimmed,
with the empty string collapsed to absent (`documentation || undefined`). -/
def docOf (content : List Char) : Option (List Char) :=
  match takeUntilSub tick3 content with
  | none => none
  | some d => if (trim d).isEmpty then none else some (trim d)

/-- An attempt of the struct pattern
`type\s+(\w+)\s+struct\s*\{([\s\S]*?)\}` at a fixed start position: the
literal `type`, a mandatory whitespace run, the greedy name, a mandatory
whitespace run, the literal `struct`, optional whitespace, the opening brace,
and the lazy body up to the first closing brace. -/
def matchStructAt (l : List Char) : Option (List Char × List Char) :=
  match l with
  | 't' :: 'y' :: 'p' :: 'e' :: r0 =>
    if headIs isSpaceChar r0 then
      let r1 := r0.dropWhile isSpaceChar
      if headIs isWordChar r1 then
        let nm := r1.takeWhile isWordChar
        let r2 := r1.dropWhile isWordChar
        if headIs isSpaceChar r2 then
          match r2.dropWhile isSpaceChar with
          | 's' :: 't' :: 'r' :: 'u' :: 'c' :: 't' :: r4 =>
            match r4.dropWhile isSpaceChar with
            | c :: r6 =>
              if c = obraceC then (takeUntilSub [cbraceC] r6).map (fun b => (nm, b))
              else none
            | [] => none
          | _ => none
        else none
      else none
    else none
  | _ => none

/-- Leftmost match of the struct pattern. -/
def structMatch : List Char → Option (List Char × List Char)
  | [] => none
  | c :: t =>
    match matchStructAt (c :: t) with
    | some r => some r
    | none => structMatch t

/-- An attempt of the inline pattern `(\w+)\s+struct\s*\{([^}]*)\}` at a
fixed start position. -/
def matchInlineAt (l : List Char) : Option (List Char × List Char) :=
  match l with
  | [] => none
  | c :: r0 =>
    if isWordChar c then
      let nm := c :: r0.takeWhile isWordChar
      let r1 := r0.dropWhile isWordChar
      if headIs isSpaceChar r1 then
        match r1.dropWhile isSpaceChar with
        | 's' :: 't' :: 'r' :: 'u' :: 'c' :: 't' :: r3 =>
          match r3.dropWhile isSpaceChar with
          | d :: r5 =>
            if d = obraceC then (takeUntilSub [cbraceC] r5).map (fun b => (nm, b))
            else none
          | [] => none
        | _ => none
      else none
    else none

/-- Leftmost match of the inline pattern. -/
def inlineSearch : List Char → Option (List Char × List Char)
  | [] => none
  | c :: t =>
    match matchInlineAt (c :: t) with
    | some r => some r
    | none => inlineSearch t

/-- `parseInlineStruct(content)`: the looser fallback; it never records
documentation. -/
def parseInlineStruct (content : List Char) : Option StructInfo :=
  match inlineSearch content with
  | none => none
  | some (nm, body) => some { name := nm, fields := parseFields body, documentation := none }

/-- `parseStructFromHover(content)`: restrict to the interior of a go-tagged
fence when one exists, match the struct pattern (falling back to the inline
pattern), and attach the documentation extracted from the original content. -/
def parseStructFromHover (content : List Char) : Option StructInfo :=
  let codeContent :=
    match codeBlockMatch content with
    | some interior => interior
    | none => content
  match structMatch codeContent with
  | none => parseInlineStruct codeContent
  | some (nm, body) =>
    some { name := nm, fields := parseFields body, documentation := docOf content }

/-- State of the comma scanner as §4.1 of the specification words it, for
comparison with the implementation: instead of the raw previous character it
tracks whether the previous character was an *unescaped* backslash. -/
structure SpecScanState where
  index : Nat
  braceDepth : Int
  parenDepth : Int
  bracketDepth : Int
  inDoubleQuote : Bool
  inBacktick : Bool
  prevUnescapedBackslash : Bool
deriving DecidableEq, Repr

def specInitState : SpecScanState :=
  { index := 0, braceDepth := 0, parenDepth := 0, bracketDepth := 0,
    inDoubleQuote := false, inBacktick := false, prevUnescapedBackslash := false }

/-- Modelled from the spec: one step of `countTopLevelCommas` as §4.1 words
it — "a `\"` while not in raw-backtick mode and not immediately preceded by
an unescaped backslash toggles double-quoted mode"; all else as the
implementation.  Used only to compare the spec's wording with the code. -/
def specScanStep (s : SpecScanState) (c : Char) : SpecScanState :=
  let s' :=
    if c = quoteC ∧ s.inBacktick = false ∧ s.prevUnescapedBackslash = false then
      { s with inDoubleQuote := !s.inDoubleQuote }
    else if c = backtC ∧ s.inDoubleQuote = false then
      { s with inBacktick := !s.inBacktick }
    else if s.inDoubleQuote = false ∧ s.inBacktick = false then
      if c = obraceC then { s with braceDepth := s.braceDepth + 1 }
      else if c = cbraceC then { s with braceDepth := s.braceDepth - 1 }
      else if c = '(' then { s with parenDepth := s.parenDepth + 1 }
      else if c = ')' then { s with parenDepth := s.parenDepth - 1 }
      else if c = '[' then { s with bracketDepth := s.bracketDepth + 1 }
      else if c = ']' then { s with bracketDepth := s.bracketDepth - 1 }
      else if c = ',' ∧ s.braceDepth = 0 ∧ s.parenDepth = 0 ∧ s.bracketDepth = 0 then
        { s with index := s.index + 1 }
      else s
    else s
  { s' with prevUnescapedBackslash := c = bslashC && !s.prevUnescapedBackslash }

/-- Modelled from the spec: `countTopLevelCommas` under the spec's
unescaped-backslash reading of the double-quote toggle. -/
def specCountTopLevelCommas (text : List Char) : Nat :=
  (text.foldl specScanStep specInitState).index

end GoAnalyzer

namespace GoAnalyzer

/-! ## General helper lemmas -/

theorem headIs_eq_false_of_head? {p : Char → Bool} {l : List Char}
    (h : ∀ c, l.head? = some c → p c = false) : headIs p l = false := by
  cases l with
  | nil => rfl
  | cons c t => exact h c rfl

theorem takeWhile_run {p : Char → Bool} {a b : List Char}
    (ha : ∀ c ∈ a, p c = true) (hb : ∀ c, b.head? = some c → p c = false) :
    (a ++ b).takeWhile p = a := by
  induction a with
  | nil =>
    cases b with
    | nil => rfl
    | cons c t => simp [List.takeWhile_cons, hb c rfl]
  | cons c a ih =>
    simp only [List.cons_append, List.takeWhile_cons, ha c (by simp)]
    simp [ih (fun d hd => ha d (by simp [hd]))]

theorem dropWhile_run {p : Char → Bool} {a b : List Char}
    (ha : ∀ c ∈ a, p c = true) (hb : ∀ c, b.head? = some c → p c = false) :
    (a ++ b).dropWhile p = b := by
  induction a with
  | nil =>
    cases b with
    | nil => rfl
    | cons c t => simp [List.dropWhile_cons, hb c rfl]
  | cons c a ih =>
    simp only [List.cons_append, List.dropWhile_cons, ha c (by simp)]
    exact ih (fun d hd => ha d (by simp [hd]))

theorem dropWhile_eq_self_of_head {p : Char → Bool} {l : List Char}
    (h : ∀ c, l.head? = some c → p c = false) : l.dropWhile p = l := by
  have := @dropWhile_run p [] l (by simp) h
  simpa using this

theorem trimEnd_eq_self {l : List Char}
    (h : ∀ c, l.getLast? = some c → isSpaceChar c = false) : trimEnd l = l := by
  unfold trimEnd
  rw [dropWhile_eq_self_of_head, List.reverse_reverse]
  intro c hc
  exact h c (by rwa [List.head?_reverse] at hc)

/-! ## Character-class facts -/

theorem isWordChar_not_space {c : Char} (h : isWordChar c = true) :
    isSpaceChar c = false := by
  simp only [isWordChar, Bool.or_eq_true, Bool.and_eq_true, decide_eq_true_eq] at h
  by_contra hx
  rw [Bool.not_eq_false] at hx
  simp only [isSpaceChar, Bool.or_eq_true, Bool.and_eq_true, decide_eq_true_eq] at hx
  omega

theorem isUpperUnd_isWordChar {c : Char} (h : isUpperUnd c = true) :
    isWordChar c = true := by
  simp only [isUpperUnd, Bool.or_eq_true, Bool.and_eq_true, decide_eq_true_eq] at h
  simp only [isWordChar, Bool.or_eq_true, Bool.and_eq_true, decide_eq_true_eq]
  omega

theorem isLowerAlpha_isWordChar {c : Char} (h : isLowerAlpha c = true) :
    isWordChar c = true := by
  simp only [isLowerAlpha, Bool.and_eq_true, decide_eq_true_eq] at h
  simp only [isWordChar, Bool.or_eq_true, Bool.and_eq_true, decide_eq_true_eq]
  omega

theorem isLowerAlpha_not_upper {c : Char} (h : isLowerAlpha c = true) :
    isUpperUnd c = false := by
  simp only [isLowerAlpha, Bool.and_eq_true, decide_eq_true_eq] at h
  by_contra hx
  rw [Bool.not_eq_false] at hx
  simp only [isUpperUnd, Bool.or_eq_true, Bool.and_eq_true, decide_eq_true_eq] at hx
  omega

theorem isLowerAlpha_not_space {c : Char} (h : isLowerAlpha c = true) :
    isSpaceChar c = false := by
  exact isWordChar_not_space (isLowerAlpha_isWordChar h)

theorem isLowerAlpha_ne_amp {c : Char} (h : isLowerAlpha c = true) : c ≠ '&' := by
  intro hc
  subst hc
  simp [isLowerAlpha] at h

theorem isUpperUnd_ne_amp {c : Char} (h : isUpperUnd c = true) : c ≠ '&' := by
  intro hc
  subst hc
  simp [isUpperUnd] at h

theorem isUpperUnd_not_space {c : Char} (h : isUpperUnd c = true) :
    isSpaceChar c = false := by
  exact isWordChar_not_space (isUpperUnd_isWordChar h)

/-! ## Step-level characterization of the comma scanner -/

set_option maxHeartbeats 2000000 in
theorem scanStep_index_eq (s : ScanState) (c : Char) :
    (scanStep s c).index =
      if c = ',' ∧ s.inDoubleQuote = false ∧ s.inBacktick = false ∧
          s.braceDepth = 0 ∧ s.parenDepth = 0 ∧ s.bracketDepth = 0 then
        s.index + 1
      else s.index := by
  obtain ⟨i, bd, pd, kd, dq, bt, pc⟩ := s
  simp only [scanStep]
  split_ifs <;> simp_all +decide

set_option maxHeartbeats 2000000 in
theorem scanStep_brace_eq (s : ScanState) (c : Char) :
    (scanStep s c).braceDepth =
      if s.inDoubleQuote = true ∨ s.inBacktick = true then s.braceDepth
      else if c = obraceC then s.braceDepth + 1
      else if c = cbraceC then s.braceDepth - 1
      else s.braceDepth := by
  obtain ⟨i, bd, pd, kd, dq, bt, pc⟩ := s
  simp only [scanStep]
  split_ifs <;> simp_all +decide

set_option maxHeartbeats 2000000 in
theorem scanStep_paren_eq (s : ScanState) (c : Char) :
    (scanStep s c).parenDepth =
      if s.inDoubleQuote = true ∨ s.inBacktick = true then s.parenDepth
      else if c = '(' then s.parenDepth + 1
      else if c = ')' then s.parenDepth - 1
      else s.parenDepth := by
  obtain ⟨i, bd, pd, kd, dq, bt, pc⟩ := s
  simp only [scanStep]
  split_ifs <;> simp_all +decide

set_option maxHeartbeats 2000000 in
theorem scanStep_bracket_eq (s : ScanState) (c : Char) :
    (scanStep s c).bracketDepth =
      if s.inDoubleQuote = true ∨ s.inBacktick = true then s.bracketDepth
      else if c = '[' then s.bracketDepth + 1
      else if c = ']' then s.bracketDepth - 1
      else s.bracketDepth := by
  obtain ⟨i, bd, pd, kd, dq, bt, pc⟩ := s
  simp only [scanStep]
  split_ifs <;> simp_all +decide

set_option maxHeartbeats 2000000 in
theorem scanStep_dq_eq (s : ScanState) (c : Char) :
    (scanStep s c).inDoubleQuote =
      if c = quoteC ∧ s.inBacktick = false ∧ s.prevChar ≠ some bslashC then
        !s.inDoubleQuote
      else s.inDoubleQuote := by
  obtain ⟨i, bd, pd, kd, dq, bt, pc⟩ := s
  simp only [scanStep]
  split_ifs <;> simp_all +decide

/-! ## C3 -/

/-- C3, counterexample.  On the five-character span `"\\",` (an opening
double quote, two backslashes, a closing double quote and a comma) the
closing quote is immediately preceded by a backslash that is itself escaped,
so under the claim's toggle condition the quote would end double-quoted mode
and the comma would be counted (the spec-worded scanner
`specCountTopLevelCommas` yields 1 and leaves double-quoted mode);
`countActiveFieldIndex` only compares the previous character against a
backslash, stays in double-quoted mode, and yields 0. -/
theorem c3_quote_toggle_counterexample :
    countActiveFieldIndex ("\"\\\\\",".toList) = 0 ∧
    specCountTopLevelCommas ("\"\\\\\",".toList) = 1 ∧
    (("\"\\\\\"".toList).foldl scanStep initState).inDoubleQuote = true ∧
    (("\"\\\\\"".toList).foldl specScanStep specInitState).inDoubleQuote = false := by
  exact ⟨by decide, by decide, by decide, by decide⟩

/-- C3, amended: in `countActiveFieldIndex` a double-quote character toggles
double-quoted mode exactly when the scanner is not in raw-backtick mode and
the quote is not immediately preceded by a backslash character — whether or
not that backslash is itself escaped; and a character scanned while in
double-quoted mode never increments the comma count.  The spec example
`countTopLevelCommas('"a,b", ') == 1` holds. -/
theorem c3_quote_toggle_amended :
    (∀ (s : ScanState) (c : Char),
      (scanStep s c).inDoubleQuote =
        if c = quoteC ∧ s.inBacktick = false ∧ s.prevChar ≠ some bslashC then
          !s.inDoubleQuote
        else s.inDoubleQuote) ∧
    (∀ (s : ScanState) (c : Char), s.inDoubleQuote = true →
      (scanStep s c).index = s.index) ∧
    countActiveFieldIndex ("\"a,b\", ".toList) = 1 := by
  refine ⟨scanStep_dq_eq, ?_, by decide⟩
  intro s c h
  rw [scanStep_index_eq, if_neg]
  rintro ⟨-, hdq, -⟩
  rw [h] at hdq
  exact Bool.true_eq_false ▸ hdq  -- contradiction

/-- C3, witness for the amended theorem at a concrete state and character. -/
theorem c3_quote_toggle_witness :
    (scanStep { index := 0, braceDepth := 0, parenDepth := 0, bracketDepth := 0,
                inDoubleQuote := true, inBacktick := false, prevChar := none } ',').index
      = 0 :=
  c3_quote_toggle_amended.2.1 _ ',' rfl

/-! ## C4 -/

/-- C4: in `countActiveFieldIndex`, a step increments the comma count exactly
when the character is a comma, the scanner is outside both string modes, and
the brace, paren and bracket depths are all exactly zero; while in either
string mode all structural characters are inert (no depth counter and no
count changes); outside string modes each open character increments and each
close character decrements its own depth counter.  The spec example
`countTopLevelCommas('[]int{1, 2, 3}, ') == 1` holds. -/
theorem c4_top_level_comma_step :
    (∀ (s : ScanState) (c : Char),
      ((scanStep s c).index =
        if c = ',' ∧ s.inDoubleQuote = false ∧ s.inBacktick = false ∧
            s.braceDepth = 0 ∧ s.parenDepth = 0 ∧ s.bracketDepth = 0 then
          s.index + 1
        else s.index) ∧
      ((scanStep s c).braceDepth =
        if s.inDoubleQuote = true ∨ s.inBacktick = true then s.braceDepth
        else if c = obraceC then s.braceDepth + 1
        else if c = cbraceC then s.braceDepth - 1
        else s.braceDepth) ∧
      ((scanStep s c).parenDepth =
        if s.inDoubleQuote = true ∨ s.inBacktick = true then s.parenDepth
        else if c = '(' then s.parenDepth + 1
        else if c = ')' then s.parenDepth - 1
        else s.parenDepth) ∧
      ((scanStep s c).bracketDepth =
        if s.inDoubleQuote = true ∨ s.inBacktick = true then s.bracketDepth
        else if c = '[' then s.bracketDepth + 1
        else if c = ']' then s.bracketDepth - 1
        else s.bracketDepth)) ∧
    countActiveFieldIndex ("[]int\x7b1, 2, 3\x7d, ".toList) = 1 := by
  exact ⟨fun s c => ⟨scanStep_index_eq s c, scanStep_brace_eq s c,
    scanStep_paren_eq s c, scanStep_bracket_eq s c⟩, by decide⟩

/-! ## C10 -/

/-- C10: the backward brace scan of `findStructLiteralContext` is not
string-aware.  In the document `s := "Foo{bar"` with the cursor just after
the brace, the only opening brace before the offset lies inside a
double-quoted string literal, yet it is selected as the candidate opening
brace and a context is produced; in contrast, `countActiveFieldIndex`
ignores braces inside string modes, so in `"a{", ` the brace inside the
string does not mask the top-level comma. -/
theorem c10_backward_scan_not_string_aware :
    findStructLiteralContext ("s := \"Foo\x7bbar\"".toList) 10 =
      some { typeName := "Foo".toList, typeStartOffset := 6, activeFieldIndex := 0 } ∧
    (("s := \"Foo\x7bbar\"".toList).take 10).count obraceC = 1 ∧
    countActiveFieldIndex ("\"a\x7b\", ".toList) = 1 := by
  exact ⟨by decide, by decide, by decide⟩

/-! ## The parseFields loop as an order-preserving filterMap -/

/-- The body of the `parseFields` loop, as a per-line partial function. -/
def fieldLineStep (line : List Char) : Option FieldInfo :=
  if line.isEmpty || ['/', '/'].isPrefixOf line then none else parseFieldLine line

theorem parseFields_foldl_eq (lines : List (List Char)) (acc : List FieldInfo) :
    lines.foldl parseFieldsStep acc = acc ++ lines.filterMap fieldLineStep := by
  induction lines generalizing acc with
  | nil => simp
  | cons line t ih =>
    rw [List.foldl_cons, List.filterMap_cons]
    by_cases h : line.isEmpty || ['/', '/'].isPrefixOf line
    · have h1 : parseFieldsStep acc line = acc := by simp [parseFieldsStep, h]
      have h2 : fieldLineStep line = none := by simp [fieldLineStep, h]
      rw [h1, h2, ih]
    · have h2 : fieldLineStep line = parseFieldLine line := by simp [fieldLineStep, h]
      cases hp : parseFieldLine line with
      | none =>
        have h1 : parseFieldsStep acc line = acc := by simp [parseFieldsStep, h, hp]
        rw [h1, h2, hp, ih]
      | some f =>
        have h1 : parseFieldsStep acc line = acc ++ [f] := by simp [parseFieldsStep, h, hp]
        rw [h1, h2, hp, ih, List.append_assoc]
        rfl

theorem parseFields_eq_filterMap (body : List Char) :
    parseFields body =
      (((splitSN body).map trim).filter (fun l => !l.isEmpty)).filterMap fieldLineStep := by
  unfold parseFields
  rw [parseFields_foldl_eq]
  simp

/-! ## C8 -/

/-- C8: `parseFields` returns, in order, exactly the descriptors of the
matched lines in their textual order: it equals an order-preserving
`filterMap` of the per-line matcher over the split, trimmed, nonempty lines
of the body (so no reordering can occur), and the spec example
`parseFields("Name string\nAge int")` yields `(Name,string)` then
`(Age,int)`. -/
theorem c8_field_order :
    (∀ body : List Char,
      parseFields body =
        (((splitSN body).map trim).filter (fun l => !l.isEmpty)).filterMap
          (fun line => if ['/', '/'].isPrefixOf line then none else parseFieldLine line)) ∧
    parseFields ("Name string\nAge int".toList) =
      [{ name := "Name".toList, fieldType := "string".toList,
         tag := none, documentation := none },
       { name := "Age".toList, fieldType := "int".toList,
         tag := none, documentation := none }] := by
  constructor
  · intro body
    rw [parseFields_eq_filterMap]
    apply List.filterMap_congr
    intro l hl
    have hne : !l.isEmpty := (List.mem_filter.mp hl).2
    simp only [fieldLineStep]
    simp_all
  · decide

/-! ## C5 -/

theorem foldl_scanStep_index_le (l : List Char) (s : ScanState) :
    ((l.foldl scanStep s).index) ≤ s.index + l.length := by
  induction l generalizing s with
  | nil => simp
  | cons c t ih =>
    have hstep : (scanStep s c).index ≤ s.index + 1 := by
      rw [scanStep_index_eq]
      split <;> omega
    calc ((t.foldl scanStep (scanStep s c)).index)
        ≤ (scanStep s c).index + t.length := ih (scanStep s c)
      _ ≤ s.index + 1 + t.length := by omega
      _ = s.index + (c :: t).length := by simp [Nat.add_comm, Nat.add_assoc, Nat.add_left_comm]

/-- C5: the core operations are total functions of their input.  In this
embedding each operation is a terminating function by construction; this
theorem records the graceful-degradation facts: the comma scan yields a
count bounded by the input length on every input; `parseFields` yields at
most one descriptor per split piece of any input; on an input of unbalanced
closers the depth counters go negative (to `-2`/`-1`/`-1` here) and the scan
still completes with a well-formed count; and malformed inputs to
`findStructLiteralContext` and `parseStructFromHover` produce the explicit
absent value rather than any failure. -/
theorem c5_totality_graceful_degradation :
    (∀ l : List Char, countActiveFieldIndex l ≤ l.length) ∧
    (∀ b : List Char, (parseFields b).length ≤ (splitSN b).length) ∧
    (("\x7d\x7d)],".toList).foldl scanStep initState).braceDepth = -2 ∧
    (("\x7d\x7d)],".toList).foldl scanStep initState).parenDepth = -1 ∧
    (("\x7d\x7d)],".toList).foldl scanStep initState).bracketDepth = -1 ∧
    countActiveFieldIndex ("\x7d\x7d)],".toList) = 0 ∧
    findStructLiteralContext ("x := 42".toList) 7 = none ∧
    parseStructFromHover ("\x7d\x7b no struct here".toList) = none := by
  refine ⟨?_, ?_, by decide, by decide, by decide, by decide, by decide, by decide⟩
  · intro l
    have h := foldl_scanStep_index_le l initState
    simpa [countActiveFieldIndex, initState] using h
  · intro b
    rw [parseFields_eq_filterMap]
    calc ((((splitSN b).map trim).filter (fun l => !l.isEmpty)).filterMap fieldLineStep).length
        ≤ (((splitSN b).map trim).filter (fun l => !l.isEmpty)).length :=
          List.length_filterMap_le _ _
      _ ≤ ((splitSN b).map trim).length := List.length_filter_le _ _
      _ = (splitSN b).length := List.length_map _ _

/-! ## Characterization of the backward brace scan -/

theorem count_cons_ne {x y : Char} (h : y ≠ x) (l : List Char) :
    (y :: l).count x = l.count x := by
  simp [List.count_cons, h]

theorem count_cons_self (x : Char) (l : List Char) :
    (x :: l).count x = l.count x + 1 := by
  simp [List.count_cons]

theorem braceSplit_cons_open_zero (rest : List Char) :
    braceSplit (obraceC :: rest) 0 = some ([], rest) := by
  simp [braceSplit]

theorem braceSplit_cons_open_succ (rest : List Char) (d : Nat) (hd : d ≠ 0) :
    braceSplit (obraceC :: rest) d =
      (braceSplit rest (d - 1)).map (fun p => (obraceC :: p.1, p.2)) := by
  simp only [braceSplit, if_pos rfl, if_neg hd]
  cases braceSplit rest (d - 1) with
  | none => rfl
  | some p => cases p; rfl

theorem braceSplit_cons_other (c : Char) (rest : List Char) (d : Nat)
    (hc : c ≠ obraceC) :
    braceSplit (c :: rest) d =
      (braceSplit rest (if c = cbraceC then d + 1 else d)).map
        (fun p => (c :: p.1, p.2)) := by
  simp only [braceSplit, if_neg hc]
  cases braceSplit rest (if c = cbraceC then d + 1 else d) with
  | none => rfl
  | some p => cases p; rfl

theorem braceSplit_none_iff (u : List Char) (d : Nat) :
    braceSplit u d = none ↔
      ∀ a b, u = a ++ obraceC :: b →
        0 < (d : Int) + a.count cbraceC - a.count obraceC := by
  induction u generalizing d with
  | nil =>
    simp only [braceSplit, true_iff]
    intro a b h
    exact absurd h (by simp)
  | cons c rest ih =>
    by_cases hc : c = obraceC
    · subst hc
      by_cases hd : d = 0
      · subst hd
        rw [braceSplit_cons_open_zero]
        constructor
        · intro h; cases h
        · intro h
          have h0 := h [] rest rfl
          simp at h0
      · rw [braceSplit_cons_open_succ rest d hd, Option.map_eq_none']
        rw [ih (d - 1)]
        have hcast : ((d - 1 : Nat) : Int) = (d : Int) - 1 := by omega
        constructor
        · intro h a b hab
          cases a with
          | nil =>
            simp only [List.count_nil]
            omega
          | cons x a' =>
            rw [List.cons_append] at hab
            injection hab with h1 htail
            subst h1
            have h3 := h a' b htail
            rw [hcast] at h3
            rw [count_cons_ne (by decide), count_cons_self]
            push_cast
            omega
        · intro h a b hab
          have h3 := h (obraceC :: a) b (by rw [hab]; rfl)
          rw [count_cons_ne (by decide), count_cons_self] at h3
          rw [hcast]
          push_cast at h3 ⊢
          omega
    · rw [braceSplit_cons_other c rest d hc, Option.map_eq_none']
      rw [ih _]
      constructor
      · intro h a b hab
        cases a with
        | nil =>
          exfalso
          have h2 := congrArg (fun l => l.head?) hab
          simp at h2
          exact hc h2
        | cons x a' =>
          rw [List.cons_append] at hab
          injection hab with h1 htail
          subst h1
          have h3 := h a' b htail
          by_cases hcb : c = cbraceC
          · subst hcb
            rw [if_pos rfl] at h3
            rw [count_cons_self, count_cons_ne (by decide)]
            push_cast at h3 ⊢
            omega
          · rw [if_neg hcb] at h3
            rw [count_cons_ne hcb, count_cons_ne hc]
            omega
      · intro h a b hab
        have h3 := h (c :: a) b (by rw [hab]; rfl)
        by_cases hcb : c = cbraceC
        · subst hcb
          rw [if_pos rfl]
          rw [count_cons_self, count_cons_ne (by decide)] at h3
          push_cast at h3 ⊢
          omega
        · rw [if_neg hcb]
          rw [count_cons_ne hcb, count_cons_ne hc] at h3
          omega

theorem braceSplit_some (u : List Char) (d : Nat) (ins bef : List Char)
    (h : braceSplit u d = some (ins, bef)) :
    u = ins ++ obraceC :: bef ∧
    (d : Int) + ins.count cbraceC - ins.count obraceC = 0 ∧
    ∀ a b, ins = a ++ obraceC :: b →
      0 < (d : Int) + a.count cbraceC - a.count obraceC := by
  induction u generalizing d ins bef with
  | nil => cases h
  | cons c rest ih =>
    by_cases hc : c = obraceC
    · subst hc
      by_cases hd : d = 0
      · subst hd
        rw [braceSplit_cons_open_zero] at h
        obtain ⟨rfl, rfl⟩ : ins = [] ∧ bef = rest := by
          constructor <;> · injection h with h1; cases h1; rfl
        refine ⟨rfl, by simp, ?_⟩
        intro a b hab
        exact absurd hab (by simp)
      · rw [braceSplit_cons_open_succ rest d hd, Option.map_eq_some'] at h
        obtain ⟨⟨ins', bef'⟩, hbs, heq⟩ := h
        have h1 : ins = obraceC :: ins' := by
          have h2 := congrArg Prod.fst heq
          simpa using h2.symm
        have h2 : bef = bef' := by
          have h3 := congrArg Prod.snd heq
          simpa using h3.symm
        subst h1; subst h2
        obtain ⟨ha, hb, hcc⟩ := ih (d - 1) ins' bef hbs
        have hcast : ((d - 1 : Nat) : Int) = (d : Int) - 1 := by omega
        rw [hcast] at hb hcc
        refine ⟨by rw [ha]; rfl, ?_, ?_⟩
        · rw [count_cons_ne (by decide), count_cons_self]
          push_cast
          omega
        · intro a b hab
          cases a with
          | nil =>
            simp only [List.count_nil]
            omega
          | cons x a' =>
            rw [List.cons_append] at hab
            injection hab with h1 htail
            subst h1
            have h3 := hcc a' b htail
            rw [count_cons_ne (by decide), count_cons_self]
            push_cast at h3 ⊢
            omega
    · rw [braceSplit_cons_other c rest d hc, Option.map_eq_some'] at h
      obtain ⟨⟨ins', bef'⟩, hbs, heq⟩ := h
      have h1 : ins = c :: ins' := by
        have h2 := congrArg Prod.fst heq
        simpa using h2.symm
      have h2 : bef = bef' := by
        have h3 := congrArg Prod.snd heq
        simpa using h3.symm
      subst h1; subst h2
      obtain ⟨ha, hb, hcc⟩ := ih _ ins' bef hbs
      refine ⟨by rw [ha]; rfl, ?_, ?_⟩
      · by_cases hcb : c = cbraceC
        · subst hcb
          rw [if_pos rfl] at hb
          rw [count_cons_self, count_cons_ne (by decide)]
          push_cast at hb ⊢
          omega
        · rw [if_neg hcb] at hb
          rw [count_cons_ne hcb, count_cons_ne hc]
          omega
      · intro a b hab
        cases a with
        | nil =>
          exfalso
          have h3 := congrArg (fun l => l.head?) hab
          simp at h3
          exact hc h3
        | cons x a' =>
          rw [List.cons_append] at hab
          injection hab with h1 htail
          subst h1
          have h3 := hcc a' b htail
          by_cases hcb : c = cbraceC
          · subst hcb
            rw [if_pos rfl] at h3
            rw [count_cons_self, count_cons_ne (by decide)]
            push_cast at h3 ⊢
            omega
          · rw [if_neg hcb] at h3
            rw [count_cons_ne hcb, count_cons_ne hc]
            omega

theorem no_obrace_split {l a b : List Char} (hc : obraceC ∉ l)
    (h : l = a ++ obraceC :: b) : False := by
  subst h
  exact hc (by simp)

/-- C7: `findStructLiteralContext` determines its candidate opening brace by
scanning backward from `offset - 1` with a depth counter that increments on
`}` and, on `{`, stops when the counter is zero and decrements otherwise.
Declaratively: when the prefix has no unmatched opening brace (every `{` in
it is followed, within the prefix, by strictly more `}` than `{`), the
result is absent; and when the scan finds a candidate, the prefix decomposes
around it, the inside segment has equally many `}` as `{`, and every `{`
inside it is followed by strictly more `}` than `{` — exactly the stopping
discipline of the counter. -/
theorem c7_backward_brace_scan :
    (∀ (text : List Char) (offset : Nat),
      (∀ a b, text.take offset = a ++ obraceC :: b →
        b.count obraceC < b.count cbraceC) →
      findStructLiteralContext text offset = none) ∧
    (∀ (text : List Char) (offset : Nat) (ins bef : List Char),
      braceSplit ((text.take offset).reverse) 0 = some (ins, bef) →
      text.take offset = bef.reverse ++ obraceC :: ins.reverse ∧
      ins.count cbraceC = ins.count obraceC ∧
      (∀ a b, ins.reverse = a ++ obraceC :: b →
        b.count obraceC < b.count cbraceC)) := by
  constructor
  · intro text offset h
    have hnone : braceSplit ((text.take offset).reverse) 0 = none := by
      rw [braceSplit_none_iff]
      intro a b hab
      have hsplit : text.take offset = b.reverse ++ obraceC :: a.reverse := by
        have h2 := congrArg List.reverse hab
        rw [List.reverse_reverse] at h2
        rw [h2]
        simp
      have h3 := h b.reverse a.reverse hsplit
      rw [List.count_reverse, List.count_reverse] at h3
      push_cast
      omega
    unfold findStructLiteralContext
    rw [hnone]
  · intro text offset ins bef h
    obtain ⟨hu, hcnt, hmin⟩ := braceSplit_some _ 0 ins bef h
    have hsplit : text.take offset = bef.reverse ++ obraceC :: ins.reverse := by
      have h2 := congrArg List.reverse hu
      rw [List.reverse_reverse] at h2
      rw [h2]
      simp
    refine ⟨hsplit, ?_, ?_⟩
    · have : (0 : Int) + ins.count cbraceC - ins.count obraceC = 0 := hcnt
      omega
    · intro a b hab
      have hins : ins = b.reverse ++ obraceC :: a.reverse := by
        have h2 := congrArg List.reverse hab
        rw [List.reverse_reverse] at h2
        rw [h2]
        simp
      have h3 := hmin b.reverse a.reverse hins
      rw [List.count_reverse, List.count_reverse] at h3
      omega

/-- C7, witness: the spec example `locateEnclosingLiteral("x := 42", 7)` is
absent, and the decomposition part applied at a concrete input. -/
theorem c7_backward_brace_scan_witness :
    findStructLiteralContext ("x := 42".toList) 7 = none ∧
    ("a\x7bb".toList).take 3 = ['a'] ++ obraceC :: ['b'] :=
  ⟨c7_backward_brace_scan.1 _ 7
      (fun a b h => (no_obrace_split (by decide) h).elim),
    (c7_backward_brace_scan.2 ("a\x7bb".toList) 3 ['b'] ['a'] (by decide)).1⟩


/-! ## splitSN lemmas and C9 -/

theorem splitSN_ne_nil (l : List Char) : splitSN l ≠ [] := by
  induction l with
  | nil => simp [splitSN]
  | cons c t ih =>
    by_cases h : c = ';' ∨ c = '\n'
    · simp [splitSN, h]
    · simp only [splitSN, if_neg h]
      cases hs : splitSN t with
      | nil => exact absurd hs ih
      | cons x r => simp

theorem splitSN_append_sep (a b : List Char) (c : Char) (hc : c = ';' ∨ c = '\n') :
    splitSN (a ++ c :: b) = splitSN a ++ splitSN b := by
  induction a with
  | nil => simp [splitSN, hc]
  | cons x a' ih =>
    rw [List.cons_append]
    by_cases h : x = ';' ∨ x = '\n'
    · have e1 : splitSN (x :: (a' ++ c :: b)) = [] :: splitSN (a' ++ c :: b) := by
        simp [splitSN, h]
      have e2 : splitSN (x :: a') = [] :: splitSN a' := by
        simp [splitSN, h]
      rw [e1, e2, ih]
      rfl
    · obtain ⟨y, r, hs⟩ : ∃ y r, splitSN a' = y :: r := by
        cases hs : splitSN a' with
        | nil => exact absurd hs (splitSN_ne_nil a')
        | cons y r => exact ⟨y, r, rfl⟩
      have e0 : splitSN (a' ++ c :: b) = y :: (r ++ splitSN b) := by
        rw [ih, hs]
        rfl
      have e1 : splitSN (x :: (a' ++ c :: b)) = (x :: y) :: (r ++ splitSN b) := by
        simp only [splitSN, if_neg h, e0]
      have e2 : splitSN (x :: a') = (x :: y) :: r := by
        simp only [splitSN, if_neg h, hs]
      rw [e1, e2]
      rfl

theorem splitSN_no_sep (l : List Char) (h : ∀ c ∈ l, ¬(c = ';' ∨ c = '\n')) :
    splitSN l = [l] := by
  induction l with
  | nil => rfl
  | cons c t ih =>
    simp only [splitSN, if_neg (h c (by simp))]
    rw [ih (fun d hd => h d (by simp [hd]))]

/-- C9: `parseFields` splits the body on semicolons and newlines, trims each
piece, and drops empty pieces and pieces whose trimmed content begins with
`//` (the spec example `parseFields("// comment\nName string")` yields
exactly one field); a bare embedded type name such as `Address` does not fit
the field shape and is silently skipped; in general, inserting a line whose
trimmed content is empty, comment-only, or rejected by the field pattern
leaves the result unchanged — no descriptor and no error. -/
theorem c9_line_handling :
    parseFields ("// comment\nName string".toList) =
      [{ name := "Name".toList, fieldType := "string".toList,
         tag := none, documentation := none }] ∧
    parseFieldLine ("Address".toList) = none ∧
    parseFields ("Name string\nAddress\nAge int".toList) =
      [{ name := "Name".toList, fieldType := "string".toList,
         tag := none, documentation := none },
       { name := "Age".toList, fieldType := "int".toList,
         tag := none, documentation := none }] ∧
    (∀ (a b mid : List Char),
      (∀ c ∈ mid, ¬(c = ';' ∨ c = '\n')) →
      (trim mid = [] ∨ ['/', '/'].isPrefixOf (trim mid) ∨ parseFieldLine (trim mid) = none) →
      parseFields (a ++ '\n' :: (mid ++ '\n' :: b)) = parseFields (a ++ '\n' :: b)) := by
  refine ⟨by decide, by decide, by decide, ?_⟩
  intro a b mid hsep hskip
  rw [parseFields_eq_filterMap, parseFields_eq_filterMap,
    splitSN_append_sep a _ '\n' (Or.inr rfl),
    splitSN_append_sep mid b '\n' (Or.inr rfl),
    splitSN_no_sep mid hsep,
    splitSN_append_sep a b '\n' (Or.inr rfl)]
  have hnone : fieldLineStep (trim mid) = none := by
    unfold fieldLineStep
    rcases hskip with h | h | h
    · simp [h]
    · simp [h]
    · split
      · rfl
      · exact h
  simp only [List.map_append, List.filter_append, List.filterMap_append]
  congr 1
  simp only [List.map_cons, List.map_nil, List.filter_cons, List.filter_nil]
  by_cases he : (trim mid).isEmpty
  · simp [he]
  · simp [he, hnone]

/-- C9, witness: inserting the bare line `Address` between two field lines
leaves `parseFields` unchanged. -/
theorem c9_line_handling_witness :
    parseFields ("Name string".toList ++ '\n' :: ("Address".toList ++ '\n' :: "Age int".toList)) =
      parseFields ("Name string".toList ++ '\n' :: "Age int".toList) :=
  c9_line_handling.2.2.2 "Name string".toList "Age int".toList "Address".toList (by decide)
    (Or.inr (Or.inr (by decide)))

/-! ## The type-name pattern on qualified names (C1) -/

theorem matchTypeFrom_cons_none {c : Char} {l : List Char} (h1 : ¬c = '&')
    (h2 : headIs isUpperUnd ((c :: l).dropWhile isSpaceChar) = false) :
    matchTypeFrom (c :: l) = none := by
  simp only [matchTypeFrom, if_neg h1]
  unfold matchTypeCore
  cases hdw : (c :: l).dropWhile isSpaceChar with
  | nil => simp [hdw, matchIdentTail]
  | cons d t =>
    rw [hdw] at h2
    simp only [headIs] at h2
    simp [hdw, matchIdentTail, h2]

theorem typeMatchSearch_cons_none {c : Char} {rest : List Char}
    (h : matchTypeFrom (c :: rest) = none) :
    typeMatchSearch (c :: rest) = typeMatchSearch rest := by
  simp [typeMatchSearch, h]

theorem typeMatchSearch_lower_skip (l m : List Char)
    (h : ∀ c ∈ l, isLowerAlpha c = true) :
    typeMatchSearch (l ++ m) = typeMatchSearch m := by
  induction l with
  | nil => rfl
  | cons c l' ih =>
    have hc := h c (by simp)
    have hnone : matchTypeFrom (c :: (l' ++ m)) = none := by
      refine matchTypeFrom_cons_none (isLowerAlpha_ne_amp hc) ?_
      rw [List.dropWhile_cons_of_neg (by simp [isLowerAlpha_not_space hc])]
      simp [headIs, isLowerAlpha_not_upper hc]
    rw [List.cons_append, typeMatchSearch_cons_none hnone]
    exact ih (fun d hd => h d (by simp [hd]))

theorem matchIdentTail_run_append {q0 : Char} {qr rest : List Char}
    (h0 : isUpperUnd q0 = true) (hqr : ∀ c ∈ qr, isWordChar c = true)
    (hrest : ∀ c, rest.head? = some c → isWordChar c = false) :
    matchIdentTail (q0 :: (qr ++ rest)) = some (q0 :: qr, rest) := by
  simp [matchIdentTail, h0, takeWhile_run hqr hrest, dropWhile_run hqr hrest]

theorem matchIdentTail_full {t0 : Char} {tr : List Char} (h0 : isUpperUnd t0 = true)
    (htr : ∀ c ∈ tr, isWordChar c = true) :
    matchIdentTail (t0 :: tr) = some (t0 :: tr, []) := by
  have h := @matchIdentTail_run_append _ _ [] h0 htr (by simp)
  simpa using h

theorem matchTypeFrom_ident {t0 : Char} {tr : List Char} (h0 : isUpperUnd t0 = true)
    (htr : ∀ c ∈ tr, isWordChar c = true) :
    matchTypeFrom (t0 :: tr) = some (0, t0 :: tr) := by
  simp only [matchTypeFrom, if_neg (isUpperUnd_ne_amp h0)]
  unfold matchTypeCore
  have hns : isSpaceChar t0 = false := isUpperUnd_not_space h0
  rw [List.takeWhile_cons_of_neg (by simp [hns]), List.dropWhile_cons_of_neg (by simp [hns])]
  simp [matchIdentTail_full h0 htr]

theorem matchTypeFrom_space_qualified {q0 t0 : Char} {qr tr : List Char}
    (hq0 : isUpperUnd q0 = true) (hqr : ∀ c ∈ qr, isWordChar c = true)
    (ht0 : isUpperUnd t0 = true) (htr : ∀ c ∈ tr, isWordChar c = true) :
    matchTypeFrom (' ' :: ((q0 :: qr) ++ '.' :: (t0 :: tr))) =
      some (1, (q0 :: qr) ++ '.' :: (t0 :: tr)) := by
  have hamp : ¬(' ' : Char) = '&' := by decide
  simp only [matchTypeFrom, if_neg hamp]
  unfold matchTypeCore
  have hq0ns : isSpaceChar q0 = false := isUpperUnd_not_space hq0
  rw [List.takeWhile_cons_of_pos (by decide), List.dropWhile_cons_of_pos (by decide)]
  rw [List.cons_append, List.takeWhile_cons_of_neg (by simp [hq0ns]),
    List.dropWhile_cons_of_neg (by simp [hq0ns])]
  have hdot : ∀ c, ('.' :: (t0 :: tr)).head? = some c → isWordChar c = false := by
    intro c hc
    injection hc with hc
    rw [← hc]
    decide
  simp [matchIdentTail_run_append hq0 hqr hdot, matchIdentTail_full ht0 htr]

theorem trimEnd_append_word {a : List Char} {t0 : Char} {tr : List Char}
    (h0 : isWordChar t0 = true) (htr : ∀ c ∈ tr, isWordChar c = true) :
    trimEnd (a ++ t0 :: tr) = a ++ t0 :: tr := by
  apply trimEnd_eq_self
  intro c hc
  rw [List.getLast?_append_of_ne_nil a (by simp)] at hc
  have hmem : c ∈ t0 :: tr := List.mem_of_mem_getLast? hc
  rcases List.mem_cons.mp hmem with h | h
  · rw [h]; exact isWordChar_not_space h0
  · exact isWordChar_not_space (htr c h)

/-- C1, counterexample: in `x := Abc.Client{` the type-name pattern matches
the package-qualified name `Abc.Client` (both segments begin with an
uppercase letter), and the returned `typeName` is the full dotted name
`Abc.Client` — not the final captured identifier segment `Client`. -/
theorem c1_qualified_typeName_counterexample :
    findStructLiteralContext ("x := Abc.Client\x7b".toList) 16 =
      some { typeName := "Abc.Client".toList, typeStartOffset := 5,
             activeFieldIndex := 0 } ∧
    "Abc.Client".toList ≠ "Client".toList := by
  exact ⟨by decide, by decide⟩

/-- C1, amended: when the pattern matches, `typeName` is the entire captured
group.  The package prefix is discarded only when the qualifier itself
cannot participate in the match: for a qualifier made of lowercase letters
(the usual Go package name, as in the spec's `http.Client` example) the
match starts at the final identifier segment, so `typeName` is that segment
alone; for a qualifier that itself begins with an uppercase letter or
underscore, the full dotted name is returned. -/
theorem c1_qualified_typeName_amended :
    (∀ (p0 t0 : Char) (pr tr : List Char),
      isLowerAlpha p0 = true → (∀ c ∈ pr, isLowerAlpha c = true) →
      isUpperUnd t0 = true → (∀ c ∈ tr, isWordChar c = true) →
      (findStructLiteralContext
          ("x := ".toList ++ ((p0 :: pr) ++ '.' :: (t0 :: tr)) ++ [obraceC])
          ("x := ".toList ++ ((p0 :: pr) ++ '.' :: (t0 :: tr)) ++ [obraceC]).length).map
          (fun ctx => (ctx.typeName, ctx.activeFieldIndex)) =
        some (t0 :: tr, 0)) ∧
    (∀ (q0 t0 : Char) (qr tr : List Char),
      isUpperUnd q0 = true → (∀ c ∈ qr, isWordChar c = true) →
      isUpperUnd t0 = true → (∀ c ∈ tr, isWordChar c = true) →
      (findStructLiteralContext
          ("x := ".toList ++ ((q0 :: qr) ++ '.' :: (t0 :: tr)) ++ [obraceC])
          ("x := ".toList ++ ((q0 :: qr) ++ '.' :: (t0 :: tr)) ++ [obraceC]).length).map
          (fun ctx => (ctx.typeName, ctx.activeFieldIndex)) =
        some ((q0 :: qr) ++ '.' :: (t0 :: tr), 0)) := by
  constructor
  · intro p0 t0 pr tr hp0 hpr ht0 htr
    set R : List Char := (p0 :: pr) ++ '.' :: (t0 :: tr) with hR
    set A : List Char := "x := ".toList ++ R with hA
    have htake : (A ++ [obraceC]).take (A ++ [obraceC]).length = A ++ [obraceC] :=
      List.take_length _
    have hrev : (A ++ [obraceC]).reverse = obraceC :: A.reverse := by
      simp
    have hbs : braceSplit ((A ++ [obraceC]).take (A ++ [obraceC]).length).reverse 0 =
        some ([], A.reverse) := by
      rw [htake, hrev, braceSplit_cons_open_zero]
    have htrim : trimEnd A = A := by
      rw [hA, hR]
      rw [show "x := ".toList ++ ((p0 :: pr) ++ '.' :: (t0 :: tr)) =
        ("x := ".toList ++ ((p0 :: pr) ++ ['.'])) ++ t0 :: tr by simp]
      exact trimEnd_append_word (isUpperUnd_isWordChar ht0) htr
    have hsearch : typeMatchSearch A = some (tr.length + 1, 0, t0 :: tr) := by
      rw [hA, hR]
      have e1 : matchTypeFrom ('x' :: (' ' :: ':' :: '=' :: ' ' :: R)) = none := by
        refine matchTypeFrom_cons_none (by decide) ?_
        rw [List.dropWhile_cons_of_neg (by decide)]
        simp only [headIs]
        decide
      have e2 : matchTypeFrom (' ' :: (':' :: '=' :: ' ' :: R)) = none := by
        refine matchTypeFrom_cons_none (by decide) ?_
        rw [List.dropWhile_cons_of_pos (by decide), List.dropWhile_cons_of_neg (by decide)]
        simp only [headIs]
        decide
      have e3 : matchTypeFrom (':' :: ('=' :: ' ' :: R)) = none := by
        refine matchTypeFrom_cons_none (by decide) ?_
        rw [List.dropWhile_cons_of_neg (by decide)]
        simp only [headIs]
        decide
      have e4 : matchTypeFrom ('=' :: (' ' :: R)) = none := by
        refine matchTypeFrom_cons_none (by decide) ?_
        rw [List.dropWhile_cons_of_neg (by decide)]
        simp only [headIs]
        decide
      have e5 : matchTypeFrom (' ' :: R) = none := by
        refine matchTypeFrom_cons_none (by decide) ?_
        rw [hR, List.cons_append, List.dropWhile_cons_of_pos (by decide),
          List.dropWhile_cons_of_neg (by simp [isLowerAlpha_not_space hp0])]
        simp only [headIs]
        exact isLowerAlpha_not_upper hp0
      have hx : "x := ".toList ++ R = 'x' :: (' ' :: ':' :: '=' :: ' ' :: R) := rfl
      rw [hx, typeMatchSearch_cons_none e1, typeMatchSearch_cons_none e2,
        typeMatchSearch_cons_none e3, typeMatchSearch_cons_none e4,
        typeMatchSearch_cons_none e5, hR]
      rw [typeMatchSearch_lower_skip (p0 :: pr) ('.' :: (t0 :: tr))
        (by intro c hc
            rcases List.mem_cons.mp hc with h | h
            exacts [by rw [h]; exact hp0, hpr c h])]
      have e6 : matchTypeFrom ('.' :: (t0 :: tr)) = none := by
        refine matchTypeFrom_cons_none (by decide) ?_
        rw [List.dropWhile_cons_of_neg (by decide)]
        simp only [headIs]
        decide
      rw [typeMatchSearch_cons_none e6]
      simp [typeMatchSearch, matchTypeFrom_ident ht0 htr]
    unfold findStructLiteralContext
    rw [hbs]
    simp only [List.reverse_reverse, htrim, hsearch]
    simp [countActiveFieldIndex, initState]
  · intro q0 t0 qr tr hq0 hqr ht0 htr
    set R : List Char := (q0 :: qr) ++ '.' :: (t0 :: tr) with hR
    set A : List Char := "x := ".toList ++ R with hA
    have htake : (A ++ [obraceC]).take (A ++ [obraceC]).length = A ++ [obraceC] :=
      List.take_length _
    have hrev : (A ++ [obraceC]).reverse = obraceC :: A.reverse := by
      simp
    have hbs : braceSplit ((A ++ [obraceC]).take (A ++ [obraceC]).length).reverse 0 =
        some ([], A.reverse) := by
      rw [htake, hrev, braceSplit_cons_open_zero]
    have htrim : trimEnd A = A := by
      rw [hA, hR]
      rw [show "x := ".toList ++ ((q0 :: qr) ++ '.' :: (t0 :: tr)) =
        ("x := ".toList ++ ((q0 :: qr) ++ ['.'])) ++ t0 :: tr by simp]
      exact trimEnd_append_word (isUpperUnd_isWordChar ht0) htr
    have hsearch : typeMatchSearch A = some (R.length + 1, 1, R) := by
      rw [hA]
      have e1 : matchTypeFrom ('x' :: (' ' :: ':' :: '=' :: ' ' :: R)) = none := by
        refine matchTypeFrom_cons_none (by decide) ?_
        rw [List.dropWhile_cons_of_neg (by decide)]
        simp only [headIs]
        decide
      have e2 : matchTypeFrom (' ' :: (':' :: '=' :: ' ' :: R)) = none := by
        refine matchTypeFrom_cons_none (by decide) ?_
        rw [List.dropWhile_cons_of_pos (by decide), List.dropWhile_cons_of_neg (by decide)]
        simp only [headIs]
        decide
      have e3 : matchTypeFrom (':' :: ('=' :: ' ' :: R)) = none := by
        refine matchTypeFrom_cons_none (by decide) ?_
        rw [List.dropWhile_cons_of_neg (by decide)]
        simp only [headIs]
        decide
      have e4 : matchTypeFrom ('=' :: (' ' :: R)) = none := by
        refine matchTypeFrom_cons_none (by decide) ?_
        rw [List.dropWhile_cons_of_neg (by decide)]
        simp only [headIs]
        decide
      have e5 : matchTypeFrom (' ' :: R) = some (1, R) := by
        rw [hR]
        exact matchTypeFrom_space_qualified hq0 hqr ht0 htr
      have hx : "x := ".toList ++ R = 'x' :: (' ' :: ':' :: '=' :: ' ' :: R) := rfl
      rw [hx, typeMatchSearch_cons_none e1, typeMatchSearch_cons_none e2,
        typeMatchSearch_cons_none e3, typeMatchSearch_cons_none e4]
      simp [typeMatchSearch, e5]
    unfold findStructLiteralContext
    rw [hbs]
    simp only [List.reverse_reverse, htrim, hsearch]
    simp [countActiveFieldIndex, initState]

/-- C1, witness for the amended theorem: the lowercase case at
`http.Client` (qualifier dropped) and the uppercase case at `Abc.Client`
(full dotted name). -/
theorem c1_qualified_typeName_witness :
    (findStructLiteralContext
        ("x := ".toList ++ (('h' :: "ttp".toList) ++ '.' :: ('C' :: "lient".toList)) ++ [obraceC])
        ("x := ".toList ++ (('h' :: "ttp".toList) ++ '.' :: ('C' :: "lient".toList)) ++ [obraceC]).length).map
        (fun ctx => (ctx.typeName, ctx.activeFieldIndex)) =
      some ('C' :: "lient".toList, 0) ∧
    (findStructLiteralContext
        ("x := ".toList ++ (('A' :: "bc".toList) ++ '.' :: ('C' :: "lient".toList)) ++ [obraceC])
        ("x := ".toList ++ (('A' :: "bc".toList) ++ '.' :: ('C' :: "lient".toList)) ++ [obraceC]).length).map
        (fun ctx => (ctx.typeName, ctx.activeFieldIndex)) =
      some (('A' :: "bc".toList) ++ '.' :: ('C' :: "lient".toList), 0) :=
  ⟨c1_qualified_typeName_amended.1 'h' 'C' "ttp".toList "lient".toList (by decide) (by decide)
      (by decide) (by decide),
    c1_qualified_typeName_amended.2 'A' 'C' "bc".toList "lient".toList (by decide) (by decide)
      (by decide) (by decide)⟩

/-! ## takeUntilSub and the struct pattern (C2) -/

theorem isSpaceChar_not_word {c : Char} (h : isSpaceChar c = true) :
    isWordChar c = false := by
  cases hw : isWordChar c with
  | false => rfl
  | true => exact absurd h (by simp [isWordChar_not_space hw])

theorem takeUntilSub_append {pat a b : List Char}
    (hb : pat.isPrefixOf b = true)
    (ha : ∀ s, s ≠ [] → s.IsSuffix a → pat.isPrefixOf (s ++ b) = false) :
    takeUntilSub pat (a ++ b) = some a := by
  induction a with
  | nil =>
    cases b with
    | nil =>
      have he : pat.isEmpty := by simpa using hb
      simp [takeUntilSub, he]
    | cons c t => simp [takeUntilSub, hb]
  | cons x a' ih =>
    have hx : pat.isPrefixOf (x :: (a' ++ b)) = false := by
      have h0 := ha (x :: a') (by simp) (List.suffix_refl _)
      rwa [List.cons_append] at h0
    have step : takeUntilSub pat (x :: (a' ++ b)) =
        if pat.isPrefixOf (x :: (a' ++ b)) then some []
        else (takeUntilSub pat (a' ++ b)).map (fun r => x :: r) := rfl
    rw [List.cons_append, step, if_neg (by simp [hx])]
    rw [ih (fun s hs hsuf => ha s hs (hsuf.trans (List.suffix_cons x a')))]
    rfl

theorem structMatch_cons_some {c : Char} {t : List Char}
    {r : List Char × List Char} (h : matchStructAt (c :: t) = some r) :
    structMatch (c :: t) = some r := by
  simp [structMatch, h]

/-- C2: when the struct pattern matches, the captured body extends exactly
to the first closing brace after the opening brace, counted at a single
level (the lazy `([\s\S]*?)\}`): for any body free of closing braces the
capture is that body, whatever follows the closing brace; and in the nested
example `type Outer struct { A struct { X int } ; B int }` the capture stops
at the inner closing brace, leaving the nested struct text flat and
unparsed — `parseFields` then reads the whole of `struct { X int` as one
opaque type expression rather than recursing into it. -/
theorem c2_lazy_body :
    (∀ (sp1 sp2 sp3 w body rest : List Char),
      sp1 ≠ [] → (∀ c ∈ sp1, isSpaceChar c = true) →
      sp2 ≠ [] → (∀ c ∈ sp2, isSpaceChar c = true) →
      (∀ c ∈ sp3, isSpaceChar c = true) →
      w ≠ [] → (∀ c ∈ w, isWordChar c = true) →
      cbraceC ∉ body →
      structMatch ("type".toList ++
          (sp1 ++ (w ++ (sp2 ++
            's' :: 't' :: 'r' :: 'u' :: 'c' :: 't' ::
              (sp3 ++ obraceC :: (body ++ cbraceC :: rest)))))) = some (w, body)) ∧
    structMatch ("type Outer struct \x7b A struct \x7b X int \x7d ; B int \x7d".toList) =
      some ("Outer".toList, " A struct \x7b X int ".toList) ∧
    parseFields (" A struct \x7b X int ".toList) =
      [{ name := "A".toList, fieldType := "struct \x7b X int".toList,
         tag := none, documentation := none }] := by
  refine ⟨?_, by decide, by decide⟩
  intro sp1 sp2 sp3 w body rest hsp1 hsp1s hsp2 hsp2s hsp3s hw hws hbody
  obtain ⟨s1, sp1', rfl⟩ := List.exists_cons_of_ne_nil hsp1
  obtain ⟨s2, sp2', rfl⟩ := List.exists_cons_of_ne_nil hsp2
  obtain ⟨w0, w', rfl⟩ := List.exists_cons_of_ne_nil hw
  have hs1 : isSpaceChar s1 = true := hsp1s s1 (by simp)
  have hs2 : isSpaceChar s2 = true := hsp2s s2 (by simp)
  have hw0 : isWordChar w0 = true := hws w0 (by simp)
  set B : List Char := body ++ cbraceC :: rest with hB
  set T3 : List Char := sp3 ++ obraceC :: B with hT3
  set TS : List Char := 's' :: 't' :: 'r' :: 'u' :: 'c' :: 't' :: T3 with hTS
  set T2 : List Char := (s2 :: sp2') ++ TS with hT2
  set TW : List Char := (w0 :: w') ++ T2 with hTW
  set T1 : List Char := (s1 :: sp1') ++ TW with hT1
  rw [show "type".toList ++ T1 = 't' :: 'y' :: 'p' :: 'e' :: T1 from rfl]
  apply structMatch_cons_some
  have hheadT1 : headIs isSpaceChar T1 = true := by
    rw [hT1, List.cons_append]
    exact hs1
  have hd1 : T1.dropWhile isSpaceChar = TW := by
    rw [hT1]
    apply dropWhile_run hsp1s
    intro c hc
    rw [hTW, List.cons_append] at hc
    injection hc with hc
    rw [← hc]
    exact isWordChar_not_space hw0
  have hheadTW : headIs isWordChar TW = true := by
    rw [hTW, List.cons_append]
    exact hw0
  have htw : TW.takeWhile isWordChar = w0 :: w' := by
    rw [hTW]
    apply takeWhile_run hws
    intro c hc
    rw [hT2, List.cons_append] at hc
    injection hc with hc
    rw [← hc]
    exact isSpaceChar_not_word hs2
  have hdw : TW.dropWhile isWordChar = T2 := by
    rw [hTW]
    apply dropWhile_run hws
    intro c hc
    rw [hT2, List.cons_append] at hc
    injection hc with hc
    rw [← hc]
    exact isSpaceChar_not_word hs2
  have hheadT2 : headIs isSpaceChar T2 = true := by
    rw [hT2, List.cons_append]
    exact hs2
  have hd2 : T2.dropWhile isSpaceChar = TS := by
    rw [hT2]
    apply dropWhile_run hsp2s
    intro c hc
    rw [hTS] at hc
    injection hc with hc
    rw [← hc]
    decide
  have hd3 : T3.dropWhile isSpaceChar = obraceC :: B := by
    rw [hT3]
    apply dropWhile_run hsp3s
    intro c hc
    injection hc with hc
    rw [← hc]
    decide
  have htub : takeUntilSub [cbraceC] B = some body := by
    rw [hB]
    apply takeUntilSub_append (by simp [List.isPrefixOf])
    intro s hs hsuf
    obtain ⟨c, s', rfl⟩ := List.exists_cons_of_ne_nil hs
    have hc : c ∈ body := hsuf.subset (by simp)
    have hne : ¬(cbraceC = c) := fun h => hbody (h ▸ hc)
    simp [List.isPrefixOf, hne]
  simp only [matchStructAt, hd1, htw, hdw, hd2, hd3, htub, hheadT1, hheadTW, hheadT2,
    if_true, hTS]
  simp [htub]

/-- C2, witness: the general part applied at a concrete definition. -/
theorem c2_lazy_body_witness :
    structMatch ("type".toList ++
        ([' '] ++ ("Person".toList ++ ([' '] ++
          's' :: 't' :: 'r' :: 'u' :: 'c' :: 't' ::
            ([' '] ++ obraceC :: (" Name string ".toList ++ cbraceC :: [])))))) =
      some ("Person".toList, " Name string ".toList) :=
  c2_lazy_body.1 [' '] [' '] [' '] "Person".toList " Name string ".toList []
    (by decide) (by decide) (by decide) (by decide) (by decide) (by decide)
    (by decide) (by decide)

/-! ## Fenced code blocks and documentation (C6) -/

theorem hasSub_of_suffix {pat s l : List Char} (hp : pat.isPrefixOf s = true)
    (hs : s.IsSuffix l) : hasSub pat l = true := by
  induction l with
  | nil =>
    have h0 : s = [] := List.suffix_nil.mp hs
    subst h0
    have h1 : pat.isEmpty := by simpa using hp
    simp [hasSub, takeUntilSub, h1]
  | cons c t ih =>
    rcases List.suffix_cons_iff.mp hs with h | h
    · subst h
      simp [hasSub, takeUntilSub, hp]
    · have hrec := ih h
      simp only [hasSub, takeUntilSub] at hrec ⊢
      by_cases hpre : pat.isPrefixOf (c :: t) = true
      · simp [hpre]
      · simp [hpre, Option.isSome_map, hrec]

theorem hasSub_cons_false {pat : List Char} {c : Char} {t : List Char}
    (h : hasSub pat (c :: t) = false) : hasSub pat t = false := by
  simp only [hasSub, takeUntilSub] at h ⊢
  by_cases hp : pat.isPrefixOf (c :: t) = true
  · simp [hp] at h
  · simp only [if_neg hp, Option.isSome_map] at h
    simpa using h

theorem codeBlockMatch_skip {pre l : List Char} (h : backtC ∉ pre) :
    codeBlockMatch (pre ++ l) = codeBlockMatch l := by
  induction pre with
  | nil => rfl
  | cons c p' ih =>
    have hc : c ≠ backtC := fun hce => h (hce ▸ List.mem_cons_self c p')
    have hb : (backtC == c) = false := by
      simp [Ne.symm hc]
    have hpre : goFence.isPrefixOf (c :: (p' ++ l)) = false := by
      simp [goFence, List.isPrefixOf, hb]
    rw [List.cons_append]
    have step : codeBlockMatch (c :: (p' ++ l)) = codeBlockMatch (p' ++ l) := by
      simp [codeBlockMatch, hpre]
    rw [step]
    exact ih (fun hm => h (List.mem_cons_of_mem c hm))

theorem takeUntilSub_close_fence {inner rest : List Char}
    (hns : hasSub closeFence inner = false) :
    takeUntilSub closeFence (inner ++ (closeFence ++ rest)) = some inner := by
  apply takeUntilSub_append
  · have : closeFence.isPrefixOf (closeFence ++ rest) = true := by
      simp [closeFence, List.isPrefixOf]
    exact this
  · intro s hs hsuf
    have hb : (backtC == '\n') = false := by decide
    rcases s with _ | ⟨a, _ | ⟨b, _ | ⟨c, _ | ⟨d, t⟩⟩⟩⟩
    · exact absurd rfl hs
    · simp [closeFence, List.isPrefixOf, hb]
    · simp [closeFence, List.isPrefixOf, hb]
    · simp [closeFence, List.isPrefixOf, hb]
    · cases hp : closeFence.isPrefixOf ((a :: b :: c :: d :: t) ++ (closeFence ++ rest)) with
      | false => rfl
      | true =>
        exfalso
        rw [List.cons_append, List.cons_append, List.cons_append, List.cons_append] at hp
        simp only [closeFence, List.isPrefixOf, Bool.and_eq_true, beq_iff_eq] at hp
        obtain ⟨ha, hb2, hc2, hd2, -⟩ := hp
        have hpres : closeFence.isPrefixOf (a :: b :: c :: d :: t) = true := by
          simp [closeFence, List.isPrefixOf, ← ha, ← hb2, ← hc2, ← hd2]
        have := hasSub_of_suffix hpres hsuf
        rw [hns] at this
        cases this

theorem codeBlockMatch_fence {inner rest : List Char}
    (hns : hasSub closeFence inner = false) :
    codeBlockMatch (goFence ++ (inner ++ (closeFence ++ rest))) = some inner := by
  have hx : goFence ++ (inner ++ (closeFence ++ rest)) =
      backtC :: (backtC :: backtC :: 'g' :: 'o' :: '\n' :: (inner ++ (closeFence ++ rest))) := rfl
  rw [hx]
  have hpre : goFence.isPrefixOf
      (backtC :: (backtC :: backtC :: 'g' :: 'o' :: '\n' :: (inner ++ (closeFence ++ rest)))) = true := by
    simp [goFence, List.isPrefixOf]
  have hdrop : (backtC :: (backtC :: backtC :: 'g' :: 'o' :: '\n' ::
      (inner ++ (closeFence ++ rest)))).drop 6 = inner ++ (closeFence ++ rest) := rfl
  simp only [codeBlockMatch, hpre, if_true, hdrop, takeUntilSub_close_fence hns]

theorem takeUntilSub_tick3 {pre l : List Char} (h : backtC ∉ pre) :
    takeUntilSub tick3 (pre ++ (goFence ++ l)) = some pre := by
  apply takeUntilSub_append
  · have : tick3.isPrefixOf (goFence ++ l) = true := by
      simp [tick3, goFence, List.isPrefixOf]
    exact this
  · intro s hs hsuf
    obtain ⟨c, s', rfl⟩ := List.exists_cons_of_ne_nil hs
    have hc : c ∈ pre := hsuf.subset (by simp)
    have hb : (backtC == c) = false := by
      simp
      intro hce
      exact h (hce ▸ hc)
    simp [tick3, List.isPrefixOf, hb]

theorem codeBlockMatch_none_of_no_tick {l : List Char}
    (h : hasSub tick3 l = false) : codeBlockMatch l = none := by
  induction l with
  | nil => rfl
  | cons c t ih =>
    by_cases hg : goFence.isPrefixOf (c :: t) = true
    · exfalso
      have htick : tick3.isPrefixOf (c :: t) = true := by
        have h1 : tick3 <+: goFence := ⟨'g' :: 'o' :: '\n' :: [], rfl⟩
        have h2 : goFence <+: (c :: t) := List.isPrefixOf_iff_prefix.mp hg
        exact List.isPrefixOf_iff_prefix.mpr (h1.trans h2)
      have := hasSub_of_suffix htick (List.suffix_refl _)
      rw [h] at this
      cases this
    · have step : codeBlockMatch (c :: t) = codeBlockMatch t := by
        simp [codeBlockMatch, hg]
      rw [step]
      exact ih (hasSub_cons_false h)

theorem docOf_none_of_no_tick {l : List Char} (h : hasSub tick3 l = false) :
    docOf l = none := by
  have hn : takeUntilSub tick3 l = none := by
    cases ht : takeUntilSub tick3 l with
    | none => rfl
    | some d => rw [hasSub, ht] at h; cases h
  simp [docOf, hn]

/-- C6, counterexample (dev): the content `a``` type Foo struct {X int}` has
no go-tagged fence (`codeBlockMatch` is absent), matches the full struct
pattern on the whole text, and yet the resulting descriptor carries the
documentation `a` — the text before the first three backticks. -/
theorem c6_fence_doc_counterexample :
    codeBlockMatch ("a``` type Foo struct \x7bX int\x7d".toList) = none ∧
    parseStructFromHover ("a``` type Foo struct \x7bX int\x7d".toList) =
      some { name := "Foo".toList,
             fields := [{ name := "X".toList, fieldType := "int".toList,
                          tag := none, documentation := none }],
             documentation := some ("a".toList) } ∧
    (parseStructFromHover ("a``` type Foo struct \x7bX int\x7d".toList)).map
        (fun s => s.documentation) ≠ some none := by
  exact ⟨by decide, by decide, by decide⟩

/-- C6, amended: when the text decomposes around a go-tagged fence (no
backtick before it, no closing fence inside it), the struct search is
restricted to the fence interior, and if the full definition pattern matches
there the documentation is the trimmed text preceding the fence (absent when
empty); when the text contains no three-backtick marker at all, the whole
text is searched and the descriptor has no documentation; and a descriptor
produced by the inline fallback never has documentation. -/
theorem c6_fence_doc_amended :
    (∀ (pre inner rest : List Char),
      backtC ∉ pre → hasSub closeFence inner = false →
      codeBlockMatch (pre ++ (goFence ++ (inner ++ (closeFence ++ rest)))) = some inner ∧
      docOf (pre ++ (goFence ++ (inner ++ (closeFence ++ rest)))) =
        (if (trim pre).isEmpty then none else some (trim pre)) ∧
      (∀ nm body, structMatch inner = some (nm, body) →
        parseStructFromHover (pre ++ (goFence ++ (inner ++ (closeFence ++ rest)))) =
          some { name := nm, fields := parseFields body,
                 documentation := if (trim pre).isEmpty then none else some (trim pre) }) ∧
      (structMatch inner = none →
        parseStructFromHover (pre ++ (goFence ++ (inner ++ (closeFence ++ rest)))) =
          parseInlineStruct inner)) ∧
    (∀ content : List Char, hasSub tick3 content = false →
      codeBlockMatch content = none ∧ docOf content = none ∧
      (∀ nm body, structMatch content = some (nm, body) →
        parseStructFromHover content =
          some { name := nm, fields := parseFields body, documentation := none }) ∧
      (structMatch content = none →
        parseStructFromHover content = parseInlineStruct content)) ∧
    (∀ (c : List Char) (s : StructInfo), parseInlineStruct c = some s →
      s.documentation = none) := by
  refine ⟨?_, ?_, ?_⟩
  · intro pre inner rest hpre hns
    have hcb : codeBlockMatch (pre ++ (goFence ++ (inner ++ (closeFence ++ rest)))) =
        some inner := by
      rw [codeBlockMatch_skip hpre, codeBlockMatch_fence hns]
    have hdoc : docOf (pre ++ (goFence ++ (inner ++ (closeFence ++ rest)))) =
        (if (trim pre).isEmpty then none else some (trim pre)) := by
      simp [docOf, takeUntilSub_tick3 hpre]
    refine ⟨hcb, hdoc, ?_, ?_⟩
    · intro nm body hsm
      simp [parseStructFromHover, hcb, hsm, hdoc]
    · intro hsm
      simp [parseStructFromHover, hcb, hsm]
  · intro content h
    have hcb : codeBlockMatch content = none := codeBlockMatch_none_of_no_tick h
    have hdoc : docOf content = none := docOf_none_of_no_tick h
    refine ⟨hcb, hdoc, ?_, ?_⟩
    · intro nm body hsm
      simp [parseStructFromHover, hcb, hsm, hdoc]
    · intro hsm
      simp [parseStructFromHover, hcb, hsm]
  · intro c s h
    unfold parseInlineStruct at h
    cases hi : inlineSearch c with
    | none => rw [hi] at h; cases h
    | some p =>
      obtain ⟨nm, body⟩ := p
      rw [hi] at h
      simp only [Option.some_inj] at h
      rw [← h]

/-- C6, witness for the amended theorem at a concrete fenced hover text. -/
theorem c6_fence_doc_witness :
    parseStructFromHover ("Docs\n".toList ++ (goFence ++
        ("type P struct \x7bA int\x7d".toList ++ (closeFence ++ [])))) =
      some { name := "P".toList,
             fields := [{ name := "A".toList, fieldType := "int".toList,
                          tag := none, documentation := none }],
             documentation := some ("Docs".toList) } := by
  have h := ((c6_fence_doc_amended.1 "Docs\n".toList "type P struct \x7bA int\x7d".toList []
      (by decide) (by decide)).2.2.1 "P".toList "A int".toList (by decide))
  rw [h]
  decide

end GoAnalyzer
